import Mathlib

/-!
Verification of the ACO multi-agent path-planning core
(`src/algorithms/ACO_runner.py`, class `ACO_MultiAgent`).

The embedding below translates the Python source into Lean.  Python floats
are modelled as exact rationals, the random stream `random.random()` is an
explicit function `ℕ → ℚ` indexed by the number of draws consumed so far,
and the unbounded `while` loops of `build_route_single` are modelled with an
explicit fuel parameter: a `none` result means the loop has not finished
within `fuel` steps (or that `random.choice` was called on an empty list,
which raises `IndexError` in Python).

`ga_core.py` (imported by the runner) is not part of the sources; the
definitions marked `Modelled from the spec:` below reconstruct the pieces
the runner uses (`create_graph`, `detect_conflicts`, `MOVE_ORTH`,
`MOVE_DIAG`) from the specification's description.
-/

namespace ACO

/-- A grid cell, identified by `(row, col)`. -/
abbrev Node : Type := ℤ × ℤ

/-- A route: the ordered list of `(timestep, node)` pairs recorded by
`build_route_single`. -/
abbrev Route : Type := List (ℕ × Node)

/-- One candidate multi-agent solution: one route per agent. -/
abbrev Sol : Type := List Route

/-- The temporal-occupancy ledger: the `(timestep, node)` pairs already
claimed while building one solution (a Python dict used as a set). -/
abbrev Occ : Type := List (ℕ × Node)

/-- The environment, given as the (finite) list of its free in-bounds cells. -/
abbrev Env : Type := List Node

/-- The pheromone table `self.pheromone`: a `defaultdict(lambda: 0.01)` keyed
by directed edges; reads never fail, so it is modelled as a total function. -/
abbrev Trail : Type := Node × Node → ℚ

/-- The eight neighbour offsets of an 8-connected grid. -/
def offsets : List Node :=
  [(-1,-1),(-1,0),(-1,1),(0,-1),(0,1),(1,-1),(1,0),(1,1)]

/-- Modelled from the spec: `ga_core.create_graph` is not under `src/`.
Per the spec (sections 3, 4.1) the graph maps each free cell to its free,
in-bounds, 8-connected neighbours; a cell that is not free has no entry
(empty neighbour list). -/
def create_graph (env : Env) (u : Node) : List Node :=
  if u ∈ env then
    offsets.filterMap (fun d =>
      let v : Node := (u.1 + d.1, u.2 + d.2)
      if v ∈ env then some v else none)
  else []

/-- The constructor parameters of `ACO_MultiAgent.__init__`, together with the
move costs `MOVE_ORTH` / `MOVE_DIAG` imported from `ga_core` (modelled from
the spec: fixed unit costs, diagonal larger than orthogonal).  The float
exponents `alpha` / `beta` are modelled as naturals (defaults 1.0 and 3.0). -/
structure Params where
  alpha : ℕ
  beta : ℕ
  rho : ℚ
  Q : ℚ
  num_ants : ℕ
  iterations : ℕ
  MIN_SEP : ℚ
  w_dist : ℚ
  w_conf : ℚ
  MOVE_ORTH : ℚ
  MOVE_DIAG : ℚ

/-- Model of `ACO_MultiAgent.dist`: the diagonal cost when `dy + dx == 2`, otherwise
the orthogonal cost. -/
def dist (P : Params) (a b : Node) : ℚ :=
  if |a.1 - b.1| + |a.2 - b.2| = 2 then P.MOVE_DIAG else P.MOVE_ORTH

/-- The initial pheromone table: the defaultdict's default is `0.01` and the
init loop writes the same `0.01` at every graph edge, so every read yields
the constant `1/100`. -/
def trailInit : Trail := fun _ => 1/100

/-- Model of `random.choice(vs)` driven by one uniform draw `r`: the element
at index `⌊r * len⌋`, clamped to the last position. -/
def uniformPick (vs : List Node) (r : ℚ) : Option Node :=
  vs.get? (min (Int.toNat (Int.floor (r * (vs.length : ℚ)))) (vs.length - 1))

/-- The cumulative-probability loop of `choose_next`: running the accumulator
`acc` over the `(neighbour, probability)` pairs, the first pair whose
accumulated probability reaches the draw `r` wins; `none` when the loop falls
through. -/
def drawFrom (r : ℚ) : ℚ → List (Node × ℚ) → Option Node
  | _, [] => none
  | acc, (v, p) :: rest => if r ≤ acc + p then some v else drawFrom r (acc + p) rest

/-- Model of `ACO_MultiAgent.choose_next`.  One uniform draw `r` is consumed per call
(either by the cumulative draw or by the `random.choice` fallback).  With an
empty neighbour list the Python code reaches `random.choice([])`, which
raises `IndexError`; that is modelled as `none`. -/
def choose_next (P : Params) (env : Env) (trail : Trail) (u : Node)
    (timestep : ℕ) (occ : Occ) (r : ℚ) : Option Node :=
  let vecinos := create_graph env u
  let ws := vecinos.map (fun v =>
    (v, (if (timestep, v) ∈ occ then (1 : ℚ)/10000 else 1) *
        (trail (u, v) ^ P.alpha * (1 / (dist P u v + 1/1000000000)) ^ P.beta)))
  let total := (ws.map Prod.snd).sum
  if vecinos = [] then
    none
  else if total = 0 then
    uniformPick vecinos r
  else
    match drawFrom r 0 (ws.map (fun vp => (vp.1, vp.2 / total))) with
    | some v => some v
    | none => vecinos.getLast?

/-- One `while curr != tgt` loop of `build_route_single`, with explicit fuel.
Returns the recorded `(timestep, node)` pairs, the final timestep, the
extended occupancy ledger and the number of random draws consumed; `none`
when the fuel runs out (the source loop has no step bound) or when
`choose_next` fails. -/
def build_leg (P : Params) (env : Env) (trail : Trail) (rng : ℕ → ℚ) :
    ℕ → Node → Node → ℕ → Occ → ℕ → Option (Route × ℕ × Occ × ℕ)
  | 0, curr, tgt, t, occ, k =>
      if curr = tgt then some ([], t, occ, k) else none
  | fuel + 1, curr, tgt, t, occ, k =>
      if curr = tgt then some ([], t, occ, k)
      else
        match choose_next P env trail curr t occ (rng k) with
        | none => none
        | some nxt =>
          match build_leg P env trail rng fuel nxt tgt (t + 1) ((t, nxt) :: occ) (k + 1) with
          | none => none
          | some (rest, t', occ', k') => some ((t, nxt) :: rest, t', occ', k')

/-- Model of `ACO_MultiAgent.build_route_single`: the `start → mid` leg followed by the
`mid → dst` leg, timesteps continuing across the boundary. -/
def build_route_single (P : Params) (env : Env) (trail : Trail) (rng : ℕ → ℚ)
    (fuel : ℕ) (start mid dst : Node) (occ : Occ) (k : ℕ) :
    Option (Route × Occ × ℕ) :=
  (build_leg P env trail rng fuel start mid 0 occ k).bind fun a =>
    (build_leg P env trail rng fuel mid dst a.2.1 a.2.2.1 a.2.2.2).bind fun b =>
      some (a.1 ++ b.1, b.2.2)

/-- The per-agent loop of `build_solution_multi`, threading the shared
occupancy ledger through the agents in order. -/
def build_solution_aux (P : Params) (env : Env) (trail : Trail) (rng : ℕ → ℚ)
    (fuel : ℕ) : List (Node × Node × Node) → Occ → ℕ → Option (Sol × ℕ)
  | [], _, k => some ([], k)
  | (s, m, d) :: rest, occ, k =>
    (build_route_single P env trail rng fuel s m d occ k).bind fun a =>
      (build_solution_aux P env trail rng fuel rest a.2.1 a.2.2).bind fun b =>
        some (a.1 :: b.1, b.2)

/-- Model of `ACO_MultiAgent.build_solution_multi`: each candidate starts from a fresh,
empty occupancy ledger; agents are given as `(start, pickup, drop)` triples. -/
def build_solution_multi (P : Params) (env : Env) (trail : Trail) (rng : ℕ → ℚ)
    (fuel : ℕ) (agents : List (Node × Node × Node)) (k : ℕ) : Option (Sol × ℕ) :=
  build_solution_aux P env trail rng fuel agents [] k

/-- The position of an agent at timestep `t` given its recorded node list:
the `t`-th node while the route lasts, afterwards the last reached node
("parked at destination" padding); `none` for an empty route. -/
def posAt (r : List Node) (t : ℕ) : Option Node :=
  match r.get? t with
  | some n => some n
  | none => r.getLast?

/-- Whether two agents' node lists collide at some shared timestep, padding
each list with its last node. -/
def pairConflict (r1 r2 : List Node) : Bool :=
  (List.range (max r1.length r2.length)).any fun t =>
    match posAt r1 t, posAt r2 t with
    | some a, some b => decide (a = b)
    | _, _ => false

/-- Modelled from the spec: `ga_core.detect_conflicts` is not under `src/`.
Per the spec (section 4.3) it counts the agent pairs `(i, j)`, `i < j`,
whose routes occupy the same node at the same timestep, padding shorter
routes with the agent's last reached node; only `len(conflicts)` is used by
the scorer (the returned `min_dist` is ignored). -/
def detect_conflicts : List (List Node) → ℕ
  | [] => 0
  | r :: rs => (rs.filter (fun r2 => pairConflict r r2)).length + detect_conflicts rs

/-- The inner distance loop of `score_solution`: sum of `dist` over the
consecutive pairs of recorded nodes. -/
def routeDist (P : Params) (nodos : List Node) : ℚ :=
  (nodos.zip nodos.tail).foldl (fun s ab => s + dist P ab.1 ab.2) 0

/-- Model of `ACO_MultiAgent.score_solution`: returns
`(total_dist + w_conf * conflicts, total_dist, conflicts)`. -/
def score_solution (P : Params) (rutas : Sol) : ℚ × ℚ × ℕ :=
  let total := (rutas.map (fun r => routeDist P (r.map Prod.snd))).sum
  let conf := detect_conflicts (rutas.map (fun r => r.map Prod.snd))
  (total + P.w_conf * (conf : ℚ), total, conf)

/-- Whether `(u, v)` is a key of the pheromone dict.  The init loop inserts
exactly the graph edges, and every later read or write is at a graph edge,
so the key set stays the set of graph edges. -/
def isEdge (env : Env) (e : Node × Node) : Bool := e.2 ∈ create_graph env e.1

/-- Model of `ACO_MultiAgent.evaporate`: every key of the pheromone dict (i.e. every
graph edge) is scaled by `1 - rho`. -/
def evaporate (P : Params) (env : Env) (trail : Trail) : Trail :=
  fun e => if isEdge env e then (1 - P.rho) * trail e else trail e

/-- How many times the directed edge `e` occurs among the consecutive pairs
of a node list. -/
def countPairs (e : Node × Node) (nodos : List Node) : ℕ :=
  ((nodos.zip nodos.tail).filter (fun ab => decide (ab = e))).length

/-- How many times the directed edge `e` is traversed by a solution's
recorded routes. -/
def countTraversals (rutas : Sol) (e : Node × Node) : ℕ :=
  (rutas.map (fun r => countPairs e (r.map Prod.snd))).sum

/-- Model of `ACO_MultiAgent.reinforce`: the deposit `Q / (score + 1e-9)` is added once
per traversed consecutive pair, i.e. `dep * multiplicity` per edge. -/
def reinforce (P : Params) (rutas : Sol) (score : ℚ) (trail : Trail) : Trail :=
  fun e => trail e + (P.Q / (score + 1/1000000000)) * (countTraversals rutas e : ℚ)

/-- Model of `candidatos.sort(key=score); candidatos[0]`: the minimum-score candidate,
earliest constructed among ties (Python's sort is stable); `none` on an empty
candidate list (where Python raises `IndexError`). -/
def pickBest : List (ℚ × Sol) → Option (ℚ × Sol)
  | [] => none
  | c :: cs => some (cs.foldl (fun b x => if x.1 < b.1 then x else b) c)

/-- The `for _ in range(num_ants)` loop of `run`: builds and scores the
iteration's candidates, threading the random-draw counter. -/
def buildCandidates (P : Params) (env : Env) (trail : Trail) (rng : ℕ → ℚ)
    (fuel : ℕ) (agents : List (Node × Node × Node)) :
    ℕ → ℕ → Option (List (ℚ × Sol) × ℕ)
  | 0, k => some ([], k)
  | n + 1, k =>
    (build_solution_multi P env trail rng fuel agents k).bind fun a =>
      (buildCandidates P env trail rng fuel agents n a.2).bind fun b =>
        some (((score_solution P a.1).1, a.1) :: b.1, b.2)

/-- The mutable state of `ACO_MultiAgent.run`: the pheromone table, the global
incumbent (`none` models `best_score = inf`), the random-draw counter, and
`candLog`, the per-iteration candidate score lists (the scores the source
computes into `candidatos`, kept as an observer for the statements below). -/
structure RunState where
  trail : Trail
  best : Option (ℚ × Sol)
  k : ℕ
  candLog : List (List ℚ)

/-- One iteration of `run`: construct and score `num_ants` candidates, pick
the iteration best, evaporate, reinforce with the iteration best only, and
update the incumbent on strict improvement. -/
def runIter (P : Params) (env : Env) (rng : ℕ → ℚ) (fuel : ℕ)
    (agents : List (Node × Node × Node)) (st : RunState) : Option RunState :=
  (buildCandidates P env st.trail rng fuel agents P.num_ants st.k).bind fun c =>
    (pickBest c.1).bind fun best =>
      some ⟨reinforce P best.2 best.1 (evaporate P env st.trail),
            (match st.best with
             | none => some best
             | some b => if best.1 < b.1 then some best else some b),
            c.2, st.candLog ++ [c.1.map Prod.fst]⟩

/-- The `for it in range(1, iterations + 1)` loop of `run`. -/
def runLoop (P : Params) (env : Env) (rng : ℕ → ℚ) (fuel : ℕ)
    (agents : List (Node × Node × Node)) : ℕ → RunState → Option RunState
  | 0, st => some st
  | n + 1, st =>
    (runIter P env rng fuel agents st).bind (runLoop P env rng fuel agents n)

/-- Model of `ACO_MultiAgent.run`: the fixed-count optimization loop, started from the
fresh pheromone table, an infinite incumbent score and draw counter 0. -/
def run (P : Params) (env : Env) (agents : List (Node × Node × Node))
    (rng : ℕ → ℚ) (fuel : ℕ) : Option RunState :=
  runLoop P env rng fuel agents P.iterations ⟨trailInit, none, 0, []⟩

/-- The source's default parameters (`alpha=1.0, beta=3.0, rho=0.1, Q=10.0,
num_ants=30, iterations=80, MIN_SEP=6.0, w_dist=1.0, w_conf=1000.0`), with
move costs instantiated as `MOVE_ORTH = 1`, `MOVE_DIAG = 7/5`. -/
def P1 : Params :=
  ⟨1, 3, 1/10, 10, 30, 80, 6, 1, 1000, 1, 7/5⟩

/-- The default parameters restricted to a single ant and a single iteration. -/
def P11 : Params := { P1 with num_ants := 1, iterations := 1 }

/-- A configuration in which all four of `rho`, `Q`, `num_ants` and
`iterations` are non-positive. -/
def P8bad : Params := { P1 with rho := -1, Q := -5, num_ants := 0, iterations := 0 }

/-- A configuration with a positive iteration count but zero ants. -/
def P8ants : Params := { P1 with num_ants := 0, iterations := 1 }

/-- Two horizontally adjacent free cells. -/
def env2 : Env := [(0,0),(0,1)]

/-- Three free cells in a horizontal line. -/
def env3L : Env := [(0,0),(0,1),(0,2)]

/-- Two free components of two cells each: `(5,5)` and `(5,6)` are not
reachable from `(0,0)` or `(0,1)`. -/
def env4 : Env := [(0,0),(0,1),(5,5),(5,6)]

/-- A corner configuration: `(1,1)` has one orthogonal neighbour `(1,2)` and
one diagonal neighbour `(2,2)`. -/
def env3C : Env := [(1,1),(1,2),(2,2)]

/-- The constant-zero random stream. -/
def rng0 : ℕ → ℚ := fun _ => 0

/-- A random stream whose third draw is `7/10` and all others `0`. -/
def rng9 : ℕ → ℚ := fun k => if k = 2 then 7/10 else 0

/-- Follows the claim wording (C2): the desirability weight
`penalty(v) * trail(u,v)^alpha * (1/dist(u,v))^beta`, with no epsilon guard
on the distance. -/
def desirability (P : Params) (trail : Trail) (u : Node) (timestep : ℕ)
    (occ : Occ) (v : Node) : ℚ :=
  (if (timestep, v) ∈ occ then (1 : ℚ)/10000 else 1) *
    (trail (u, v) ^ P.alpha * (1 / dist P u v) ^ P.beta)

/-- The desirability weight as the source computes it: the inverse distance
is guarded by `+ 1e-9`. -/
def desirabilityEps (P : Params) (trail : Trail) (u : Node) (timestep : ℕ)
    (occ : Occ) (v : Node) : ℚ :=
  (if (timestep, v) ∈ occ then (1 : ℚ)/10000 else 1) *
    (trail (u, v) ^ P.alpha * (1 / (dist P u v + 1/1000000000)) ^ P.beta)

/-- The cumulative probability of the neighbour at index `i`: the sum of the
normalized weights of the neighbours up to and including `i`. -/
def cumProb (w : Node → ℚ) (total : ℚ) (vs : List Node) (i : ℕ) : ℚ :=
  ((vs.take (i + 1)).map (fun v => w v / total)).sum

/-- Follows the claim wording (C2): a weighted random draw over `vs` with
weight function `w` — the first neighbour whose cumulative probability meets
or exceeds the draw `r` wins; if rounding selects nobody, the last neighbour
is chosen; if the weights sum to zero, fall back to a uniform choice. -/
def specChoose (vs : List Node) (w : Node → ℚ) (r : ℚ) : Option Node :=
  let total := (vs.map w).sum
  if vs = [] then none
  else if total = 0 then uniformPick vs r
  else
    match (List.range vs.length).find? (fun i => decide (r ≤ cumProb w total vs i)) with
    | some i => vs.get? i
    | none => vs.getLast?

/-- The transition rule exactly as claim C2 words it (epsilon-free weights). -/
def choose_next_spec (P : Params) (env : Env) (trail : Trail) (u : Node)
    (timestep : ℕ) (occ : Occ) (r : ℚ) : Option Node :=
  specChoose (create_graph env u) (desirability P trail u timestep occ) r

/-- The claim's transition rule with the weight formula corrected to the
source's epsilon-guarded inverse distance. -/
def choose_next_spec_eps (P : Params) (env : Env) (trail : Trail) (u : Node)
    (timestep : ℕ) (occ : Occ) (r : ℚ) : Option Node :=
  specChoose (create_graph env u) (desirabilityEps P trail u timestep occ) r

/-- Follows the claim wording (C4): the total distance of a solution when
each Route is read as beginning implicitly at its agent's start node, so
that the move from the start to the first recorded node is also costed. -/
def spec_total_distance (P : Params) (starts : List Node) (rutas : Sol) : ℚ :=
  ((starts.zip rutas).map (fun sr => routeDist P (sr.1 :: sr.2.map Prod.snd))).sum

/-- The pickup node appears (weakly) before the drop node in a node list. -/
def pickupBeforeDrop (mid dst : Node) (nodes : List Node) : Prop :=
  ∃ i j : ℕ, i ≤ j ∧ nodes.get? i = some mid ∧ nodes.get? j = some dst

/-- One evaporate/reinforce operation on the pheromone table. -/
inductive PherOp where
  | evap : PherOp
  | reinf : Sol → ℚ → PherOp

/-- Apply one pheromone operation. -/
def applyOp (P : Params) (env : Env) (trail : Trail) : PherOp → Trail
  | .evap => evaporate P env trail
  | .reinf rs s => reinforce P rs s trail

/-- Apply a sequence of pheromone operations, oldest first. -/
def applyOps (P : Params) (env : Env) : List PherOp → Trail → Trail
  | [], tr => tr
  | op :: ops, tr => applyOps P env ops (applyOp P env tr op)

/-- A reinforcement operation carries a non-negative score (as every score
produced by `score_solution` is, given non-negative move costs and conflict
weight); evaporation carries no data. -/
def opScoreOK : PherOp → Prop
  | .evap => True
  | .reinf _ s => 0 ≤ s

/-- The minimum of a list of scores, `none` for the empty list (the value of
the incumbent `best_score = inf` before any candidate is seen). -/
def ominQ (b : Option ℚ) (x : ℚ) : Option ℚ :=
  some (match b with | none => x | some y => min y x)

/-- Fold `ominQ` over a score list. -/
def minList (l : List ℚ) : Option ℚ := l.foldl ominQ none

/-- The configuration with `w_dist` and `MIN_SEP` overridden. -/
def upd (P : Params) (p q : ℚ) : Params := { P with w_dist := p, MIN_SEP := q }

/-- A random stream whose second draw is `7/10` and all others `0`. -/
def rng5 : ℕ → ℚ := fun k => if k = 1 then 7/10 else 0

/-!  Helper lemmas. -/

/-- Membership characterization of the modelled graph. -/
lemma mem_create_graph {env : Env} {u v : Node} (h : v ∈ create_graph env u) :
    u ∈ env ∧ v ∈ env ∧ (v.1 - u.1, v.2 - u.2) ∈ offsets := by
  unfold create_graph at h
  split at h
  · obtain ⟨d, hd, hfd⟩ := List.mem_filterMap.mp h
    simp only at hfd
    split at hfd
    · obtain rfl : (u.1 + d.1, u.2 + d.2) = v := by injection hfd
      refine ⟨by assumption, by assumption, ?_⟩
      simpa using hd
    · cases hfd
  · cases h

/-- A graph neighbour is a different cell: the offsets exclude `(0, 0)`. -/
lemma create_graph_ne {env : Env} {u v : Node} (h : v ∈ create_graph env u) :
    v ≠ u := by
  obtain ⟨-, -, hoff⟩ := mem_create_graph h
  intro he
  subst he
  simp only [sub_self] at hoff
  revert hoff
  decide

/-- The loop `drawFrom` only returns elements of the pair list. -/
lemma drawFrom_mem :
    ∀ (l : List (Node × ℚ)) (acc : ℚ) {r : ℚ} {v : Node},
      drawFrom r acc l = some v → v ∈ l.map Prod.fst := by
  intro l
  induction l with
  | nil => intro acc r v h; cases h
  | cons a tl ih =>
    intro acc r v h
    obtain ⟨va, pa⟩ := a
    simp only [drawFrom] at h
    split at h
    · cases h; simp
    · simpa using Or.inr (ih _ h)

/-- The fallback `uniformPick` only returns elements of the list. -/
lemma uniformPick_mem {vs : List Node} {r : ℚ} {v : Node}
    (h : uniformPick vs r = some v) : v ∈ vs :=
  List.get?_mem h

/-- The function `choose_next` only ever returns a graph neighbour of the current node. -/
lemma choose_next_mem {P : Params} {env : Env} {trail : Trail} {u : Node}
    {t : ℕ} {occ : Occ} {r : ℚ} {v : Node}
    (h : choose_next P env trail u t occ r = some v) : v ∈ create_graph env u := by
  simp only [choose_next] at h
  split at h
  · cases h
  · split at h
    · exact uniformPick_mem h
    · split at h
      · rename_i w heq
        cases h
        have hm := drawFrom_mem _ _ heq
        simpa [List.map_map, Function.comp] using hm
      · exact List.mem_of_mem_getLast? h

/-- A finished leg: when the current node is the target the loop exits at
once, whatever the fuel. -/
lemma build_leg_done {P : Params} {env : Env} {trail : Trail} {rng : ℕ → ℚ}
    {fuel : ℕ} {curr tgt : Node} {t : ℕ} {occ : Occ} {k : ℕ} (h : curr = tgt) :
    build_leg P env trail rng fuel curr tgt t occ k = some ([], t, occ, k) := by
  cases fuel <;> simp [build_leg, h]

/-- One unrolling of a leg step, given the chosen next node. -/
lemma build_leg_step {P : Params} {env : Env} {trail : Trail} {rng : ℕ → ℚ}
    {fuel : ℕ} {curr tgt : Node} {t : ℕ} {occ : Occ} {k : ℕ} {nxt : Node}
    (hne : curr ≠ tgt)
    (hc : choose_next P env trail curr t occ (rng k) = some nxt) :
    build_leg P env trail rng (fuel + 1) curr tgt t occ k
      = (build_leg P env trail rng fuel nxt tgt (t + 1) ((t, nxt) :: occ) (k + 1)).map
          (fun x => ((t, nxt) :: x.1, x.2)) := by
  simp only [build_leg, if_neg hne, hc]
  cases hrec : build_leg P env trail rng fuel nxt tgt (t + 1) ((t, nxt) :: occ) (k + 1) with
  | none => rfl
  | some x => obtain ⟨r, t', o, k'⟩ := x; rfl

/-- A leg step where `choose_next` fails aborts the whole leg. -/
lemma build_leg_step_none {P : Params} {env : Env} {trail : Trail} {rng : ℕ → ℚ}
    {fuel : ℕ} {curr tgt : Node} {t : ℕ} {occ : Occ} {k : ℕ}
    (hne : curr ≠ tgt)
    (hc : choose_next P env trail curr t occ (rng k) = none) :
    build_leg P env trail rng (fuel + 1) curr tgt t occ k = none := by
  simp [build_leg, if_neg hne, hc]

/-- Searching with `find?` only depends on the values of the predicate on the list. -/
lemma find?_congr' {α : Type} (l : List α) {p q : α → Bool}
    (h : ∀ x ∈ l, p x = q x) : l.find? p = l.find? q := by
  induction l with
  | nil => rfl
  | cons a tl ih =>
    simp only [List.find?_cons]
    rw [h a (List.mem_cons_self a tl)]
    cases hqa : q a
    · exact ih fun x hx => h x (List.mem_cons_of_mem a hx)
    · rfl

/-- The source's cumulative-accumulator loop agrees with the claim's
description: the first index whose cumulative weight meets or exceeds the
draw is chosen, with fallback `z` when no index qualifies. -/
lemma drawFrom_eq_find (r : ℚ) (w : Node → ℚ) (z : Option Node) :
    ∀ (vs : List Node) (acc : ℚ),
      (match drawFrom r acc (vs.map fun v => (v, w v)) with
       | some v => some v
       | none => z)
      = (match (List.range vs.length).find?
            (fun i => decide (r ≤ acc + ((vs.take (i + 1)).map w).sum)) with
         | some i => vs.get? i
         | none => z) := by
  intro vs
  induction vs with
  | nil => intro acc; rfl
  | cons v tl ih =>
    intro acc
    simp only [List.map_cons, drawFrom, List.length_cons, List.range_succ_eq_map,
      List.find?_cons, List.take_succ_cons, List.sum_cons, List.map_cons,
      List.take_zero, List.map_nil, List.sum_nil, add_zero]
    by_cases h0 : r ≤ acc + w v
    · rw [if_pos h0, decide_eq_true h0]
      rfl
    · rw [if_neg h0, decide_eq_false h0]
      have hfind :
          (List.map Nat.succ (List.range tl.length)).find?
              (fun i => decide (r ≤ acc + (w v + ((tl.take i).map w).sum)))
            = ((List.range tl.length).find?
                (fun i => decide (r ≤ acc + w v + ((tl.take (i + 1)).map w).sum))).map
                Nat.succ := by
        rw [List.find?_map]
        congr 1
        apply find?_congr'
        intro i _
        simp only [Function.comp_apply]
        exact decide_eq_decide.mpr (by rw [add_assoc])
      rw [hfind]
      rw [ih (acc + w v)]
      cases (List.range tl.length).find?
          (fun i => decide (r ≤ acc + w v + ((tl.take (i + 1)).map w).sum)) with
      | none => rfl
      | some i => rfl

/-- The body of `choose_next`, for an arbitrary weight function, agrees with
the claim's description `specChoose`. -/
lemma choose_body_eq_specChoose (vs : List Node) (W : Node → ℚ) (r : ℚ) :
    (if vs = [] then none
     else if ((vs.map fun v => (v, W v)).map Prod.snd).sum = 0 then uniformPick vs r
     else
       match drawFrom r 0 ((vs.map fun v => (v, W v)).map fun vp =>
           (vp.1, vp.2 / ((vs.map fun v => (v, W v)).map Prod.snd).sum)) with
       | some v => some v
       | none => vs.getLast?)
    = specChoose vs W r := by
  have hmap : ((vs.map fun v => (v, W v)).map Prod.snd) = vs.map W := by
    simp [List.map_map, Function.comp]
  simp only [specChoose, hmap]
  by_cases hnil : vs = []
  · simp [hnil]
  · rw [if_neg hnil, if_neg hnil]
    by_cases h0 : (vs.map W).sum = 0
    · rw [if_pos h0, if_pos h0]
    · rw [if_neg h0, if_neg h0]
      have hprobs : ((vs.map fun v => (v, W v)).map fun vp =>
            (vp.1, vp.2 / (vs.map W).sum)) = vs.map fun v => (v, W v / (vs.map W).sum) := by
        simp [List.map_map, Function.comp]
      rw [hprobs, drawFrom_eq_find r (fun v => W v / (vs.map W).sum) vs.getLast? vs 0]
      have hpred : (List.range vs.length).find?
            (fun i => decide (r ≤ 0 + ((vs.take (i + 1)).map
              (fun v => W v / (vs.map W).sum)).sum))
          = (List.range vs.length).find?
            (fun i => decide (r ≤ cumProb W ((vs.map W).sum) vs i)) := by
        apply find?_congr'
        intro i _
        exact decide_eq_decide.mpr (by rw [cumProb, zero_add])
      rw [hpred]

/-- C2 (amended): `choose_next` is exactly the claim's weighted draw once the
weight formula uses the source's epsilon-guarded inverse distance
`1/(dist + 1e-9)`: same weights, same zero-total uniform fallback, the first
neighbour whose cumulative probability meets or exceeds the draw wins, and
the last neighbour is the deterministic fallback. -/
theorem choose_next_matches_amended_spec (P : Params) (env : Env) (trail : Trail)
    (u : Node) (t : ℕ) (occ : Occ) (r : ℚ) :
    choose_next P env trail u t occ r = choose_next_spec_eps P env trail u t occ r :=
  choose_body_eq_specChoose (create_graph env u) (desirabilityEps P trail u t occ) r

/-- Everything `build_leg` guarantees about a leg it completes: the final
timestep, the contiguity of the recorded timesteps, the adjacency chain from
the entry node, emptiness exactly for a trivial leg, and the leg's last
recorded node being the target. -/
lemma build_leg_spec (P : Params) (env : Env) (trail : Trail) (rng : ℕ → ℚ) :
    ∀ (fuel : ℕ) (curr tgt : Node) (t : ℕ) (occ : Occ) (k : ℕ)
      (r : Route) (t' : ℕ) (occ' : Occ) (k' : ℕ),
      build_leg P env trail rng fuel curr tgt t occ k = some (r, t', occ', k') →
      t' = t + r.length ∧
      r.map Prod.fst = List.range' t r.length ∧
      List.Chain (fun a b => b ∈ create_graph env a) curr (r.map Prod.snd) ∧
      (r = [] ↔ curr = tgt) ∧
      (r ≠ [] → (r.map Prod.snd).getLast? = some tgt) := by
  intro fuel
  induction fuel with
  | zero =>
    intro curr tgt t occ k r t' occ' k' h
    simp only [build_leg] at h
    split at h
    · rename_i hc
      injection h with h'
      simp only [Prod.mk.injEq] at h'
      obtain ⟨rfl, rfl, -, -⟩ := h'
      exact ⟨by simp, by simp [List.range'], List.Chain.nil, by simp [hc],
        fun hne => absurd rfl hne⟩
    · cases h
  | succ n ih =>
    intro curr tgt t occ k r t' occ' k' h
    by_cases hc : curr = tgt
    · rw [build_leg_done hc] at h
      injection h with h'
      simp only [Prod.mk.injEq] at h'
      obtain ⟨rfl, rfl, -, -⟩ := h'
      exact ⟨by simp, by simp [List.range'], List.Chain.nil, by simp [hc],
        fun hne => absurd rfl hne⟩
    · cases hcn : choose_next P env trail curr t occ (rng k) with
      | none => rw [build_leg_step_none hc hcn] at h; cases h
      | some nxt =>
        rw [build_leg_step hc hcn] at h
        cases hrec : build_leg P env trail rng n nxt tgt (t + 1) ((t, nxt) :: occ) (k + 1) with
        | none => rw [hrec] at h; cases h
        | some x =>
          obtain ⟨rest, t2, occ2, k2⟩ := x
          rw [hrec] at h
          simp only [Option.map_some'] at h
          injection h with h'
          simp only [Prod.mk.injEq] at h'
          obtain ⟨rfl, rfl, -, -⟩ := h'
          obtain ⟨ht', htimes, hchain, hiff, hlast⟩ :=
            ih nxt tgt (t + 1) ((t, nxt) :: occ) (k + 1) rest t2 occ2 k2 hrec
          refine ⟨?_, ?_, ?_, ?_, ?_⟩
          · simp only [List.length_cons]
            omega
          · simp only [List.map_cons, List.length_cons, List.range'_succ, htimes]
          · exact List.Chain.cons (choose_next_mem hcn) hchain
          · simp [hc]
          · intro _
            by_cases hrn : rest = []
            · subst hrn
              have hnt : nxt = tgt := hiff.mp rfl
              simp [hnt]
            · have hlast' := hlast hrn
              have hmn : rest.map Prod.snd ≠ [] := by
                simpa [List.map_eq_nil_iff] using hrn
              cases hm : rest.map Prod.snd with
              | nil => exact absurd hm hmn
              | cons b l =>
                rw [hm] at hlast'
                rw [List.map_cons, hm, List.getLast?_cons_cons]
                exact hlast'

/-- Chains concatenate when the second chain starts at the last node of the
first. -/
lemma chain_append_of_getLast {α : Type} {adj : α → α → Prop} :
    ∀ {l1 : List α} {a b : α} {l2 : List α},
      List.Chain adj a l1 → l1.getLast? = some b → List.Chain adj b l2 →
      List.Chain adj a (l1 ++ l2) := by
  intro l1
  induction l1 with
  | nil => intro a b l2 _ h; cases h
  | cons c tl ih =>
    intro a b l2 h1 hlast h2
    cases h1 with
    | cons hac hc =>
      cases tl with
      | nil =>
        have hcb : c = b := by simpa using hlast
        subst hcb
        exact List.Chain.cons hac h2
      | cons e tl2 =>
        rw [List.getLast?_cons_cons] at hlast
        exact List.Chain.cons hac (ih hc hlast h2)

/-- Folding an additive accumulator is the sum of the mapped list. -/
lemma foldl_add_eq {α : Type} (f : α → ℚ) :
    ∀ (l : List α) (a : ℚ), l.foldl (fun s x => s + f x) a = a + (l.map f).sum := by
  intro l
  induction l with
  | nil => intro a; simp
  | cons x xs ih =>
    intro a
    simp only [List.foldl_cons, List.map_cons, List.sum_cons, ih, add_assoc]

/-- The value `routeDist` is the sum of the per-step move costs over consecutive
recorded nodes. -/
lemma routeDist_eq_sum (P : Params) (nodos : List Node) :
    routeDist P nodos = ((nodos.zip nodos.tail).map fun ab => dist P ab.1 ab.2).sum := by
  simpa [routeDist] using foldl_add_eq (fun ab : Node × Node => dist P ab.1 ab.2)
    (nodos.zip nodos.tail) 0

/-- Inversion of `build_route_single`: a completed route is the two completed
legs concatenated, the second starting where the first ended. -/
lemma build_route_single_inv {P : Params} {env : Env} {trail : Trail} {rng : ℕ → ℚ}
    {fuel : ℕ} {s m d : Node} {occ : Occ} {k : ℕ} {r : Route} {occ2 : Occ} {k2 : ℕ}
    (h : build_route_single P env trail rng fuel s m d occ k = some (r, occ2, k2)) :
    ∃ r1 t1 occ1 k1 r2 t2,
      build_leg P env trail rng fuel s m 0 occ k = some (r1, t1, occ1, k1) ∧
      build_leg P env trail rng fuel m d t1 occ1 k1 = some (r2, t2, occ2, k2) ∧
      r = r1 ++ r2 := by
  unfold build_route_single at h
  cases h1 : build_leg P env trail rng fuel s m 0 occ k with
  | none => rw [h1] at h; cases h
  | some a =>
    obtain ⟨r1, t1, occ1, k1⟩ := a
    rw [h1] at h
    simp only [Option.some_bind] at h
    cases h2 : build_leg P env trail rng fuel m d t1 occ1 k1 with
    | none => rw [h2] at h; cases h
    | some b =>
      obtain ⟨r2, t2, occB, kB⟩ := b
      rw [h2] at h
      simp only [Option.some_bind] at h
      injection h with h'
      simp only [Prod.mk.injEq] at h'
      obtain ⟨rfl, rfl, rfl⟩ := h'
      exact ⟨r1, t1, occ1, k1, r2, t2, rfl, h2, rfl⟩

/-- C3 (amended): whenever `build_route_single` terminates on non-trivial
legs (`start ≠ pickup` and `pickup ≠ drop`), the returned route has
timesteps `0, 1, 2, …` increasing by exactly 1, every recorded node is
graph-adjacent to its predecessor (starting from the agent's start node),
the final recorded node is the drop, the route splits into the two legs each
ending at its own target, and the pickup node appears before the drop node.
The claim's unconditional version fails when a leg is trivial
(`trivial_first_leg_skips_pickup`). -/
theorem build_route_single_invariants
    (P : Params) (env : Env) (trail : Trail) (rng : ℕ → ℚ) (fuel : ℕ)
    (s m d : Node) (occ : Occ) (k : ℕ) (r : Route) (occ2 : Occ) (k2 : ℕ)
    (h : build_route_single P env trail rng fuel s m d occ k = some (r, occ2, k2))
    (hsm : s ≠ m) (hmd : m ≠ d) :
    r.map Prod.fst = List.range r.length ∧
    List.Chain (fun a b => b ∈ create_graph env a) s (r.map Prod.snd) ∧
    (r.map Prod.snd).getLast? = some d ∧
    (∃ r1 r2, r = r1 ++ r2 ∧ r1 ≠ [] ∧ (r1.map Prod.snd).getLast? = some m ∧
      r2 ≠ [] ∧ (r2.map Prod.snd).getLast? = some d) ∧
    pickupBeforeDrop m d (r.map Prod.snd) := by
  obtain ⟨r1, t1, occ1, k1, r2, t2, h1, h2, rfl⟩ := build_route_single_inv h
  obtain ⟨ht1, htime1, hchain1, hiff1, hlast1⟩ :=
    build_leg_spec P env trail rng fuel s m 0 occ k r1 t1 occ1 k1 h1
  obtain ⟨ht2, htime2, hchain2, hiff2, hlast2⟩ :=
    build_leg_spec P env trail rng fuel m d t1 occ1 k1 r2 t2 occ2 k2 h2
  have hr1ne : r1 ≠ [] := fun hnil => hsm (hiff1.mp hnil)
  have hr2ne : r2 ≠ [] := fun hnil => hmd (hiff2.mp hnil)
  have hlast1' := hlast1 hr1ne
  have hlast2' := hlast2 hr2ne
  have hn1ne : r1.map Prod.snd ≠ [] := by simpa [List.map_eq_nil_iff] using hr1ne
  have hwhole : ((r1 ++ r2).map Prod.snd).getLast? = some d := by
    rw [List.map_append, List.getLast?_append, hlast2']
    rfl
  refine ⟨?_, ?_, hwhole, ⟨r1, r2, rfl, hr1ne, hlast1', hr2ne, hlast2'⟩, ?_⟩
  · rw [List.map_append, htime1, htime2, ht1, List.range_eq_range', List.length_append]
    simpa [Nat.add_comm] using List.range'_append 0 r1.length r2.length 1
  · rw [List.map_append]
    exact chain_append_of_getLast hchain1 hlast1' hchain2
  · refine ⟨(r1.map Prod.snd).length - 1, ((r1 ++ r2).map Prod.snd).length - 1, ?_, ?_, ?_⟩
    · have hp : 0 < (r1.map Prod.snd).length := List.length_pos.mpr hn1ne
      have hle : (r1.map Prod.snd).length ≤ ((r1 ++ r2).map Prod.snd).length := by
        simp [List.map_append]
      omega
    · rw [List.map_append, List.get?_append
        (by have := List.length_pos.mpr hn1ne; omega)]
      rw [← List.getLast?_eq_get?]
      exact hlast1'
    · rw [← List.getLast?_eq_get?]
      exact hwhole

/-- The value `routeDist` splits off its first step. -/
lemma routeDist_cons (P : Params) (s v : Node) (tl : List Node) :
    routeDist P (s :: v :: tl) = dist P s v + routeDist P (v :: tl) := by
  rw [routeDist_eq_sum, routeDist_eq_sum]
  simp [List.zip_cons_cons]

/-- C9 (amended): a non-empty completed route starts with the first moved-to
node at timestep 0 — never with the start node itself, since the graph has no
self-loops.  Consequently the cost of the very first move (start to first
recorded node) is exactly what `score_solution` leaves out of the route's
distance, and `reinforce` deposits only on consecutive recorded pairs, so
the initial departure edge gets no deposit from that first step (the start
node may still be revisited later, as `route_revisits_start_node` shows). -/
theorem route_first_record_excludes_start
    (P : Params) (env : Env) (trail : Trail) (rng : ℕ → ℚ) (fuel : ℕ)
    (s m d : Node) (occ : Occ) (k : ℕ) (r : Route) (occ2 : Occ) (k2 : ℕ)
    (h : build_route_single P env trail rng fuel s m d occ k = some (r, occ2, k2))
    (hne : r ≠ []) :
    ∃ v rest, r = (0, v) :: rest ∧ v ∈ create_graph env s ∧ v ≠ s ∧
      routeDist P (s :: r.map Prod.snd) = dist P s v + routeDist P (r.map Prod.snd) ∧
      (score_solution P [r]).2.1 = routeDist P (r.map Prod.snd) ∧
      (∀ e, countTraversals [r] e = countPairs e (r.map Prod.snd)) := by
  obtain ⟨r1, t1, occ1, k1, r2, t2, h1, h2, rfl⟩ := build_route_single_inv h
  obtain ⟨ht1, htime1, hchain1, hiff1, hlast1⟩ :=
    build_leg_spec P env trail rng fuel s m 0 occ k r1 t1 occ1 k1 h1
  obtain ⟨ht2, htime2, hchain2, hiff2, hlast2⟩ :=
    build_leg_spec P env trail rng fuel m d t1 occ1 k1 r2 t2 occ2 k2 h2
  have hhead : ∃ v rest, r1 ++ r2 = (0, v) :: rest ∧ v ∈ create_graph env s := by
    cases hr1 : r1 with
    | cons x tl1 =>
      obtain ⟨xt, xv⟩ := x
      subst hr1
      simp only [List.map_cons, List.range'_succ, List.length_cons, List.cons.injEq] at htime1
      cases hchain1 with
      | cons hadj _ =>
        exact ⟨xv, tl1 ++ r2, by simp [htime1.1], hadj⟩
    | nil =>
      subst hr1
      have hsm : s = m := hiff1.mp rfl
      have ht0 : t1 = 0 := by simpa using ht1
      cases hr2 : r2 with
      | nil => subst hr2; exact absurd rfl hne
      | cons x tl2 =>
        obtain ⟨xt, xv⟩ := x
        subst hr2
        simp only [List.map_cons, List.range'_succ, List.length_cons,
          List.cons.injEq, ht0] at htime2
        cases hchain2 with
        | cons hadj _ =>
          exact ⟨xv, tl2, by simp [htime2.1], by rw [hsm]; exact hadj⟩
  obtain ⟨v, rest, hsplit, hmem⟩ := hhead
  refine ⟨v, rest, hsplit, hmem, create_graph_ne hmem, ?_, ?_, ?_⟩
  · rw [hsplit, List.map_cons]
    exact routeDist_cons P s v (rest.map Prod.snd)
  · simp [score_solution]
  · intro e
    simp [countTraversals]

/-- C4 (amended): `score_solution` returns
`(T + w_conf * C, T, C)` where `T` sums the per-step move costs over the
consecutive *recorded* nodes of each route — the implicit start step is not
counted (`score_solution_ignores_start_move`) — and `C` is the conflict
count of the detector. -/
theorem score_solution_formula (P : Params) (rutas : Sol) :
    (score_solution P rutas).1
        = (score_solution P rutas).2.1 + P.w_conf * ((score_solution P rutas).2.2 : ℚ) ∧
    (score_solution P rutas).2.1
        = (rutas.map (fun r => ((((r.map Prod.snd).zip (r.map Prod.snd).tail).map
            fun ab => dist P ab.1 ab.2).sum))).sum ∧
    (score_solution P rutas).2.2 = detect_conflicts (rutas.map (fun r => r.map Prod.snd)) := by
  have hfun : (fun (r : Route) => routeDist P (r.map Prod.snd))
      = fun (r : Route) => (((r.map Prod.snd).zip (r.map Prod.snd).tail).map
          fun ab => dist P ab.1 ab.2).sum :=
    funext fun r => routeDist_eq_sum P (r.map Prod.snd)
  refine ⟨rfl, ?_, rfl⟩
  simp only [score_solution, hfun]

/-- Witness for C3's amended invariants: start `(0,0)`, pickup `(0,1)`,
drop `(0,0)` on the two-cell strip produce the route
`[(0,(0,1)), (1,(0,0))]`, in which the pickup appears before the drop. -/
theorem build_route_single_invariants_witness :
    ((0,0) : Node) ≠ (0,1) ∧ ((0,1) : Node) ≠ (0,0) ∧
    build_route_single P1 env2 trailInit rng0 3 (0,0) (0,1) (0,0) [] 0
      = some ([(0,(0,1)),(1,(0,0))], [(1,(0,0)),(0,(0,1))], 2) ∧
    pickupBeforeDrop (0,1) (0,0) (([(0,(0,1)),(1,(0,0))] : Route).map Prod.snd) := by
  have hcA : choose_next P1 env2 trailInit (0,0) 0 [] (rng0 0) = some (0,1) := by
    have h : create_graph env2 (0,0) = [(0,1)] := by decide
    simp only [choose_next, h]
    norm_num [trailInit, dist, P1, drawFrom, rng0]
    all_goals simp
  have hcB : choose_next P1 env2 trailInit (0,1) 1 [(0,(0,1))] (rng0 1) = some (0,0) := by
    have h : create_graph env2 (0,1) = [(0,0)] := by decide
    simp only [choose_next, h]
    norm_num [trailInit, dist, P1, drawFrom, rng0]
    all_goals simp
  have hroute : build_route_single P1 env2 trailInit rng0 3 (0,0) (0,1) (0,0) [] 0
      = some ([(0,(0,1)),(1,(0,0))], [(1,(0,0)),(0,(0,1))], 2) := by
    unfold build_route_single
    rw [build_leg_step (by decide) hcA, build_leg_done rfl]
    simp only [Option.map_some', Option.some_bind]
    rw [build_leg_step (by decide) hcB, build_leg_done rfl]
    rfl
  exact ⟨by decide, by decide, hroute,
    (build_route_single_invariants P1 env2 trailInit rng0 3 (0,0) (0,1) (0,0) [] 0
      _ _ _ hroute (by decide) (by decide)).2.2.2.2⟩

/-- Witness for C9's amended statement on the concrete route `[(0,(0,1))]`
from start `(0,0)`. -/
theorem route_first_record_excludes_start_witness :
    (build_route_single P1 env2 trailInit rng0 3 (0,0) (0,1) (0,1) [] 0
      = some ([(0,(0,1))], [(0,(0,1))], 1)) ∧
    (([(0,(0,1))] : Route) ≠ []) ∧
    (∃ v rest, ([(0,(0,1))] : Route) = (0, v) :: rest ∧ v ∈ create_graph env2 (0,0) ∧
      v ≠ (0,0) ∧
      routeDist P1 ((0,0) :: ([(0,(0,1))] : Route).map Prod.snd)
        = dist P1 (0,0) v + routeDist P1 (([(0,(0,1))] : Route).map Prod.snd) ∧
      (score_solution P1 [([(0,(0,1))] : Route)]).2.1
        = routeDist P1 (([(0,(0,1))] : Route).map Prod.snd) ∧
      (∀ e, countTraversals [([(0,(0,1))] : Route)] e
        = countPairs e (([(0,(0,1))] : Route).map Prod.snd))) := by
  have hcA : choose_next P1 env2 trailInit (0,0) 0 [] (rng0 0) = some (0,1) := by
    have h : create_graph env2 (0,0) = [(0,1)] := by decide
    simp only [choose_next, h]
    norm_num [trailInit, dist, P1, drawFrom, rng0]
    all_goals simp
  have hroute : build_route_single P1 env2 trailInit rng0 3 (0,0) (0,1) (0,1) [] 0
      = some ([(0,(0,1))], [(0,(0,1))], 1) := by
    unfold build_route_single
    rw [build_leg_step (by decide) hcA, build_leg_done rfl]
    simp only [Option.map_some', Option.some_bind]
    rw [build_leg_done rfl]
    rfl
  exact ⟨hroute, by decide,
    route_first_record_excludes_start P1 env2 trailInit rng0 3 (0,0) (0,1) (0,1) [] 0
      _ _ _ hroute (by decide)⟩

/-- In `env4` the component of `(0,0)` is `{(0,0), (0,1)}`, so a leg towards
`(5,5)` can never exit its loop, whatever the fuel. -/
lemma unreachable_leg_aux (trail : Trail) (rng : ℕ → ℚ) :
    ∀ (fuel : ℕ) (curr : Node) (t : ℕ) (occ : Occ) (k : ℕ),
      curr = (0,0) ∨ curr = (0,1) →
      build_leg P1 env4 trail rng fuel curr (5,5) t occ k = none := by
  intro fuel
  induction fuel with
  | zero =>
    rintro curr t occ k hc
    have hne : curr ≠ ((5 : ℤ), (5 : ℤ)) := by rcases hc with rfl | rfl <;> decide
    simp [build_leg, hne]
  | succ n ih =>
    rintro curr t occ k hc
    have hne : curr ≠ ((5 : ℤ), (5 : ℤ)) := by rcases hc with rfl | rfl <;> decide
    cases hcn : choose_next P1 env4 trail curr t occ (rng k) with
    | none => exact build_leg_step_none hne hcn
    | some nxt =>
      have hmem := choose_next_mem hcn
      have hnxt : nxt = ((0 : ℤ), (0 : ℤ)) ∨ nxt = ((0 : ℤ), (1 : ℤ)) := by
        rcases hc with rfl | rfl
        · rw [show create_graph env4 ((0 : ℤ), (0 : ℤ)) = [((0 : ℤ), (1 : ℤ))] from by decide] at hmem
          simp only [List.mem_singleton] at hmem
          exact Or.inr hmem
        · rw [show create_graph env4 ((0 : ℤ), (1 : ℤ)) = [((0 : ℤ), (0 : ℤ))] from by decide] at hmem
          simp only [List.mem_singleton] at hmem
          exact Or.inl hmem
      rw [build_leg_step hne hcn, ih nxt (t + 1) ((t, nxt) :: occ) (k + 1) hnxt]
      rfl

/-- C1: route construction has no per-leg step bound and no "no route"
signal.  With start `(0,0)` and pickup `(5,5)` in different components of
`env4`, `build_route_single` completes under **no** step budget: the source's
unbounded `while curr != mid` loop runs forever instead of reporting
structural infeasibility. -/
theorem build_route_single_unreachable_never_terminates
    (trail : Trail) (rng : ℕ → ℚ) (fuel : ℕ) (occ : Occ) (k : ℕ) :
    build_route_single P1 env4 trail rng fuel (0,0) (5,5) (5,6) occ k = none := by
  unfold build_route_single
  rw [unreachable_leg_aux trail rng fuel (0,0) 0 occ k (Or.inl rfl)]
  rfl

/-- C8: no configuration validation exists.  With `rho = -1`, `Q = -5`,
`num_ants = 0` and `iterations = 0` the run returns normally (zero
iterations, empty log, incumbent still infinite) instead of rejecting the
configuration; with `num_ants = 0` and one iteration the loop crashes on
`candidatos[0]` (modelled `none`) rather than failing before the loop; and
the negative `rho` is happily used, growing trails under "evaporation". -/
theorem run_accepts_nonpositive_configuration :
    run P8bad env2 [((0,0),(0,1),(0,1))] rng0 5 = some ⟨trailInit, none, 0, []⟩ ∧
    run P8ants env2 [((0,0),(0,1),(0,1))] rng0 5 = none ∧
    evaporate P8bad env2 trailInit ((0,0),(0,1)) = 1/50 := by
  refine ⟨rfl, rfl, ?_⟩
  simp only [evaporate]
  rw [if_pos (show isEdge env2 ((0,0),(0,1)) = true from by decide)]
  norm_num [P8bad, P1, trailInit]

/-- C2 counterexample: at node `(1,1)` of `env3C` (one orthogonal and one
diagonal neighbour, uniform trails, draw `343/468`) the source picks the
diagonal neighbour while the claim's epsilon-free weight formula picks the
orthogonal one. -/
theorem choose_next_deviates_from_claim_weights :
    choose_next P1 env3C trailInit (1,1) 0 [] (343/468) = some (2,2) ∧
    choose_next_spec P1 env3C trailInit (1,1) 0 [] (343/468) = some (1,2) := by
  constructor
  · have h : create_graph env3C (1,1) = [(1,2),(2,2)] := by decide
    simp only [choose_next, h]
    norm_num [trailInit, dist, P1, drawFrom]
    all_goals simp
  · have h : create_graph env3C (1,1) = [(1,2),(2,2)] := by decide
    simp only [choose_next_spec, specChoose, h]
    norm_num [desirability, trailInit, dist, P1, cumProb, List.range_succ]
    all_goals simp

/-- C3 counterexample: with `start = pickup = (0,0)` and `drop = (0,1)` in
`env2` the first leg is empty, the returned route is `[(0,(0,1))]`, and the
pickup node does not appear in it at all, so "the pickup node appears before
the drop node" fails. -/
theorem trivial_first_leg_skips_pickup :
    build_route_single P1 env2 trailInit rng0 3 (0,0) (0,0) (0,1) [] 0
      = some ([(0,(0,1))], [(0,(0,1))], 1) ∧
    ¬ pickupBeforeDrop (0,0) (0,1) [(0,1)] := by
  constructor
  · have hc : choose_next P1 env2 trailInit (0,0) 0 [] (rng0 0) = some (0,1) := by
      have h : create_graph env2 (0,0) = [(0,1)] := by decide
      simp only [choose_next, h]
      norm_num [trailInit, dist, P1, drawFrom, rng0]
      all_goals simp
    unfold build_route_single
    rw [build_leg_done rfl]
    simp only [Option.some_bind]
    rw [build_leg_step (by decide) hc, build_leg_done rfl]
    rfl
  · rintro ⟨i, j, -, hi, -⟩
    have hm := List.get?_mem hi
    rw [List.mem_singleton] at hm
    exact absurd hm (by decide)

/-- C4 counterexample: for the single-agent solution `[[(0,(0,1))]]` with
start `(0,0)`, `score_solution` returns penalized score `0`, while the
claim's reading (routes beginning implicitly at the start node) yields `1`:
the move cost from the start to the first recorded node is not counted. -/
theorem score_solution_ignores_start_move :
    (score_solution P1 [[(0,(0,1))]]).1 = 0 ∧
    spec_total_distance P1 [(0,0)] [[(0,(0,1))]]
      + P1.w_conf * (((score_solution P1 [[(0,(0,1))]]).2.2 : ℕ) : ℚ) = 1 := by
  constructor
  · norm_num [score_solution, routeDist, detect_conflicts, P1]
  · norm_num [spec_total_distance, routeDist, dist, score_solution,
      detect_conflicts, P1]

/-- C9 counterexample: with start `(0,1)`, pickup `(0,0)`, drop `(0,2)` in
the 3-cell line, the returned route is `[(0,(0,0)), (1,(0,1)), (2,(0,2))]`:
it revisits the start node `(0,1)`, and the edge `((0,1),(0,2))` leaving the
start is traversed once, hence deposited by `reinforce` and costed by
`score_solution`. -/
theorem route_revisits_start_node :
    build_route_single P1 env3L trailInit rng9 5 (0,1) (0,0) (0,2) [] 0
      = some ([(0,(0,0)),(1,(0,1)),(2,(0,2))], [(2,(0,2)),(1,(0,1)),(0,(0,0))], 3) ∧
    ((0 : ℤ), (1 : ℤ)) ∈ ([(0,(0,0)),(1,(0,1)),(2,(0,2))] : Route).map Prod.snd ∧
    countTraversals [[(0,(0,0)),(1,(0,1)),(2,(0,2))]] ((0,1),(0,2)) = 1 := by
  refine ⟨?_, by decide, by decide⟩
  have hc0 : choose_next P1 env3L trailInit (0,1) 0 [] (rng9 0) = some (0,0) := by
    have h : create_graph env3L (0,1) = [(0,0),(0,2)] := by decide
    simp only [choose_next, h]
    norm_num [trailInit, dist, P1, drawFrom, rng9]
    all_goals simp
  have hc1 : choose_next P1 env3L trailInit (0,0) 1 [(0,(0,0))] (rng9 1) = some (0,1) := by
    have h : create_graph env3L (0,0) = [(0,1)] := by decide
    simp only [choose_next, h]
    norm_num [trailInit, dist, P1, drawFrom, rng9]
    all_goals simp
  have hc2 : choose_next P1 env3L trailInit (0,1) 2 [(1,(0,1)),(0,(0,0))] (rng9 2)
      = some (0,2) := by
    have h : create_graph env3L (0,1) = [(0,0),(0,2)] := by decide
    simp only [choose_next, h]
    norm_num [trailInit, dist, P1, drawFrom, rng9]
    all_goals simp
  unfold build_route_single
  rw [build_leg_step (by decide) hc0, build_leg_done rfl]
  simp only [Option.map_some', Option.some_bind]
  rw [build_leg_step (by decide) hc1, build_leg_step (by decide) hc2,
      build_leg_done rfl]
  rfl

/-- A successful `pickBest` implies a non-empty candidate list. -/
lemma pickBest_ne_nil {cands : List (ℚ × Sol)} {best : ℚ × Sol}
    (h : pickBest cands = some best) : cands ≠ [] := by
  intro hnil
  subst hnil
  cases h

/-- The selection fold stays inside the candidate list. -/
lemma foldl_pick_mem :
    ∀ (cs : List (ℚ × Sol)) (c : ℚ × Sol),
      cs.foldl (fun b x => if x.1 < b.1 then x else b) c ∈ c :: cs := by
  intro cs
  induction cs with
  | nil => intro c; simp
  | cons y tl ih =>
    intro c
    simp only [List.foldl_cons]
    rcases List.mem_cons.mp (ih (if y.1 < c.1 then y else c)) with h | h
    · rw [h]
      by_cases hy : y.1 < c.1
      · simp [hy]
      · simp [hy]
    · exact List.mem_cons_of_mem _ (List.mem_cons_of_mem _ h)

/-- The selection fold never beats its initial candidate's score. -/
lemma foldl_pick_le_init :
    ∀ (cs : List (ℚ × Sol)) (c : ℚ × Sol),
      (cs.foldl (fun b x => if x.1 < b.1 then x else b) c).1 ≤ c.1 := by
  intro cs
  induction cs with
  | nil => intro c; exact le_refl _
  | cons y tl ih =>
    intro c
    simp only [List.foldl_cons]
    refine le_trans (ih _) ?_
    by_cases hy : y.1 < c.1
    · rw [if_pos hy]; exact le_of_lt hy
    · rw [if_neg hy]

/-- The selection fold result is minimal among all candidates. -/
lemma foldl_pick_le :
    ∀ (cs : List (ℚ × Sol)) (c : ℚ × Sol) (x : ℚ × Sol), x ∈ c :: cs →
      (cs.foldl (fun b x => if x.1 < b.1 then x else b) c).1 ≤ x.1 := by
  intro cs
  induction cs with
  | nil =>
    intro c x hx
    rw [List.mem_singleton.mp hx]
    exact le_refl _
  | cons y tl ih =>
    intro c x hx
    simp only [List.foldl_cons]
    rcases List.mem_cons.mp hx with rfl | hx'
    · refine le_trans (foldl_pick_le_init tl _) ?_
      by_cases hy : y.1 < x.1
      · rw [if_pos hy]
        exact le_of_lt hy
      · rw [if_neg hy]
    · rcases List.mem_cons.mp hx' with rfl | hx''
      · refine le_trans (foldl_pick_le_init tl _) ?_
        by_cases hy : x.1 < c.1
        · rw [if_pos hy]
        · rw [if_neg hy]
          exact not_lt.mp hy
      · exact ih _ x (List.mem_cons_of_mem _ hx'')

/-- The score of the selection fold is the `min`-fold of the scores. -/
lemma foldl_pick_fst :
    ∀ (cs : List (ℚ × Sol)) (c : ℚ × Sol),
      (cs.foldl (fun b x => if x.1 < b.1 then x else b) c).1
        = (cs.map Prod.fst).foldl min c.1 := by
  intro cs
  induction cs with
  | nil => intro c; rfl
  | cons y tl ih =>
    intro c
    simp only [List.foldl_cons, List.map_cons]
    rw [ih]
    congr 1
    by_cases hy : y.1 < c.1
    · rw [if_pos hy, min_eq_right (le_of_lt hy)]
    · rw [if_neg hy, min_eq_left (not_lt.mp hy)]

/-- Folding `ominQ` from a defined minimum is the plain `min` fold. -/
lemma foldl_ominQ_some :
    ∀ (xs : List ℚ) (m : ℚ), xs.foldl ominQ (some m) = some (xs.foldl min m) := by
  intro xs
  induction xs with
  | nil => intro m; rfl
  | cons x tl ih =>
    intro m
    simp only [List.foldl_cons]
    rw [show ominQ (some m) x = some (min m x) from rfl, ih]

/-- Minimum folds shift over their initial accumulator. -/
lemma foldl_min_shift :
    ∀ (xs : List ℚ) (y x : ℚ), xs.foldl min (min y x) = min y (xs.foldl min x) := by
  intro xs
  induction xs with
  | nil => intro y x; rfl
  | cons z tl ih =>
    intro y x
    simp only [List.foldl_cons]
    rw [min_assoc, ih]

/-- Folding `ominQ` over a non-empty score list is one `ominQ` against the
list's internal minimum. -/
lemma foldl_ominQ_cons (b : Option ℚ) (x : ℚ) (xs : List ℚ) :
    (x :: xs).foldl ominQ b = ominQ b (xs.foldl min x) := by
  cases b with
  | none =>
    simp only [List.foldl_cons]
    rw [show ominQ none x = some x from rfl, foldl_ominQ_some]
    rfl
  | some y =>
    simp only [List.foldl_cons]
    rw [show ominQ (some y) x = some (min y x) from rfl, foldl_ominQ_some,
      foldl_min_shift]
    rfl

/-- The incumbent update of `run` is an `ominQ` step on scores. -/
lemma newBest_map_fst (ob : Option (ℚ × Sol)) (best : ℚ × Sol) :
    (match ob with
     | none => some best
     | some b => if best.1 < b.1 then some best else some b).map Prod.fst
      = ominQ (ob.map Prod.fst) best.1 := by
  cases ob with
  | none => rfl
  | some b =>
    by_cases hb : best.1 < b.1
    · simp only [hb, if_true, Option.map_some', ominQ]
      rw [min_eq_right (le_of_lt hb)]
    · simp only [hb, if_false, Option.map_some', ominQ]
      rw [min_eq_left (not_lt.mp hb)]

/-- The loop `buildCandidates n` produces exactly `n` scored candidates. -/
lemma buildCandidates_length (P : Params) (env : Env) (trail : Trail)
    (rng : ℕ → ℚ) (fuel : ℕ) (agents : List (Node × Node × Node)) :
    ∀ (n k : ℕ) (cands : List (ℚ × Sol)) (k2 : ℕ),
      buildCandidates P env trail rng fuel agents n k = some (cands, k2) →
      cands.length = n := by
  intro n
  induction n with
  | zero =>
    intro k cands k2 h
    simp only [buildCandidates] at h
    injection h with h'
    simp only [Prod.mk.injEq] at h'
    rw [← h'.1]
    rfl
  | succ nn ih =>
    intro k cands k2 h
    simp only [buildCandidates] at h
    cases hb : build_solution_multi P env trail rng fuel agents k with
    | none => rw [hb] at h; cases h
    | some a =>
      rw [hb] at h
      simp only [Option.some_bind] at h
      cases hc : buildCandidates P env trail rng fuel agents nn a.2 with
      | none => rw [hc] at h; cases h
      | some b =>
        obtain ⟨cs, kk⟩ := b
        rw [hc] at h
        simp only [Option.some_bind] at h
        injection h with h'
        simp only [Prod.mk.injEq] at h'
        rw [← h'.1, List.length_cons, ih a.2 cs kk hc]

/-- Inversion of one `run` iteration. -/
lemma runIter_inv {P : Params} {env : Env} {rng : ℕ → ℚ} {fuel : ℕ}
    {agents : List (Node × Node × Node)} {st st1 : RunState}
    (h : runIter P env rng fuel agents st = some st1) :
    ∃ cands k2 best,
      buildCandidates P env st.trail rng fuel agents P.num_ants st.k
        = some (cands, k2) ∧
      pickBest cands = some best ∧
      st1.trail = reinforce P best.2 best.1 (evaporate P env st.trail) ∧
      st1.best = (match st.best with
        | none => some best
        | some b => if best.1 < b.1 then some best else some b) ∧
      st1.k = k2 ∧ st1.candLog = st.candLog ++ [cands.map Prod.fst] := by
  unfold runIter at h
  cases hbc : buildCandidates P env st.trail rng fuel agents P.num_ants st.k with
  | none => rw [hbc] at h; cases h
  | some c =>
    obtain ⟨cands, k2⟩ := c
    rw [hbc] at h
    simp only [Option.some_bind] at h
    cases hpb : pickBest cands with
    | none => rw [hpb] at h; cases h
    | some best =>
      rw [hpb] at h
      simp only [Option.some_bind] at h
      injection h with h'
      subst h'
      exact ⟨cands, k2, best, rfl, hpb, rfl, rfl, rfl, rfl⟩

/-- What the optimization loop guarantees: each completed run appends one
candidate-score list per iteration (of length `num_ants`, never empty) and
the incumbent's score is the running `ominQ`-fold (i.e. minimum) of every
candidate score seen, on top of the initial incumbent. -/
lemma runLoop_spec (P : Params) (env : Env) (rng : ℕ → ℚ) (fuel : ℕ)
    (agents : List (Node × Node × Node)) :
    ∀ (n : ℕ) (st st' : RunState),
      runLoop P env rng fuel agents n st = some st' →
      ∃ logs : List (List ℚ),
        st'.candLog = st.candLog ++ logs ∧ logs.length = n ∧
        (∀ l ∈ logs, l.length = P.num_ants ∧ l ≠ []) ∧
        st'.best.map Prod.fst = logs.flatten.foldl ominQ (st.best.map Prod.fst) := by
  intro n
  induction n with
  | zero =>
    intro st st' h
    simp only [runLoop] at h
    injection h with h'
    subst h'
    exact ⟨[], by simp, rfl, by simp, by simp⟩
  | succ nn ih =>
    intro st st' h
    simp only [runLoop] at h
    cases hit : runIter P env rng fuel agents st with
    | none => rw [hit] at h; cases h
    | some st1 =>
      rw [hit] at h
      simp only [Option.some_bind] at h
      obtain ⟨logs, hlog, hlen, hall, hbest⟩ := ih st1 st' h
      obtain ⟨cands, k2, best, hbc, hpb, htr, hbst, hk, hcl⟩ := runIter_inv hit
      have hcne : cands ≠ [] := pickBest_ne_nil hpb
      refine ⟨(cands.map Prod.fst) :: logs, ?_, by simp [hlen], ?_, ?_⟩
      · rw [hlog, hcl, List.append_assoc, List.singleton_append]
      · intro l hl
        rcases List.mem_cons.mp hl with rfl | hl'
        · constructor
          · rw [List.length_map]
            exact buildCandidates_length P env st.trail rng fuel agents
              P.num_ants st.k cands k2 hbc
          · simpa [List.map_eq_nil_iff] using hcne
        · exact hall l hl'
      · cases hcands : cands with
        | nil => exact absurd hcands hcne
        | cons c0 cs =>
          have hfold : cs.foldl (fun b x => if x.1 < b.1 then x else b) c0 = best := by
            rw [hcands] at hpb
            simp only [pickBest] at hpb
            injection hpb
          have hb1 : best.1 = (cs.map Prod.fst).foldl min c0.1 := by
            rw [← hfold, foldl_pick_fst]
          rw [hbest, hbst, newBest_map_fst, List.flatten_cons, List.foldl_append,
            List.map_cons, foldl_ominQ_cons, ← hb1]

/-- C6: `run` executes exactly `iterations` iterations (its candidate log has
one entry per iteration, each of length `num_ants` — there is no early
stopping) and the returned best score is the minimum penalized score over
all `num_ants * iterations` constructed candidates. -/
theorem run_best_score_is_min_of_candidates
    (P : Params) (env : Env) (agents : List (Node × Node × Node)) (rng : ℕ → ℚ)
    (fuel : ℕ) (log : List (List ℚ))
    (h : (run P env agents rng fuel).map RunState.candLog = some log) :
    log.length = P.iterations ∧ (∀ l ∈ log, l.length = P.num_ants) ∧
    ((run P env agents rng fuel).bind fun st => st.best.map Prod.fst)
      = minList log.flatten := by
  cases hr : run P env agents rng fuel with
  | none => rw [hr] at h; cases h
  | some st' =>
    rw [hr] at h
    injection h with h'
    subst h'
    unfold run at hr
    obtain ⟨logs, hlog, hlen, hall, hbest⟩ :=
      runLoop_spec P env rng fuel agents P.iterations _ st' hr
    simp only [List.nil_append] at hlog
    refine ⟨by rw [hlog]; exact hlen, ?_, ?_⟩
    · intro l hl
      rw [hlog] at hl
      exact (hall l hl).1
    · simp only [Option.some_bind]
      rw [hbest, hlog]
      rfl

/-- C5: in each iteration, once all `num_ants` candidates are constructed and
scored, the iteration best is a minimum-score candidate; every graph edge's
trail is first multiplied by `(1 - rho)`, and then each edge receives
`Q / (best_score + 1e-9)` per traversal by the best candidate's routes —
no other candidate deposits anything (the update depends only on the best). -/
theorem iteration_evaporates_then_reinforces_best
    (P : Params) (env : Env) (rng : ℕ → ℚ) (fuel : ℕ)
    (agents : List (Node × Node × Node)) (st : RunState)
    (cands : List (ℚ × Sol)) (k2 : ℕ) (sBest : ℚ) (rBest : Sol)
    (h1 : buildCandidates P env st.trail rng fuel agents P.num_ants st.k
        = some (cands, k2))
    (h2 : pickBest cands = some (sBest, rBest)) :
    ∃ st1, runIter P env rng fuel agents st = some st1 ∧
      (sBest, rBest) ∈ cands ∧ (∀ c ∈ cands, sBest ≤ c.1) ∧
      st1.candLog = st.candLog ++ [cands.map Prod.fst] ∧
      (∀ e, isEdge env e = true →
        st1.trail e = (1 - P.rho) * st.trail e
          + (P.Q / (sBest + 1/1000000000)) * (countTraversals rBest e : ℚ)) := by
  cases hcands : cands with
  | nil => exact absurd hcands (pickBest_ne_nil h2)
  | cons c0 cs =>
    subst hcands
    have hrun : runIter P env rng fuel agents st
        = some ⟨reinforce P rBest sBest (evaporate P env st.trail),
                (match st.best with
                 | none => some (sBest, rBest)
                 | some b => if sBest < b.1 then some (sBest, rBest) else some b),
                k2, st.candLog ++ [(c0 :: cs).map Prod.fst]⟩ := by
      unfold runIter
      rw [h1]
      simp only [Option.some_bind]
      rw [h2]
      rfl
    have hfold : cs.foldl (fun b x => if x.1 < b.1 then x else b) c0 = (sBest, rBest) := by
      have h2' := h2
      simp only [pickBest] at h2'
      injection h2'
    refine ⟨_, hrun, ?_, ?_, rfl, ?_⟩
    · rw [← hfold]
      exact foldl_pick_mem cs c0
    · intro c hc
      have := foldl_pick_le cs c0 c hc
      rw [hfold] at this
      exact this
    · intro e he
      simp only [reinforce, evaporate, he, if_true]

/-- Witness for C6: with one ant and one iteration on the two-cell strip the
run's candidate log is `[[0]]` and the returned best score is exactly the
single constructed solution's score `0`. -/
theorem run_best_score_is_min_of_candidates_witness :
    ((run P11 env2 [((0,0),(0,1),(0,1))] rng0 2).map RunState.candLog = some [[0]]) ∧
    ((run P11 env2 [((0,0),(0,1),(0,1))] rng0 2).bind fun st => st.best.map Prod.fst)
      = some 0 := by
  have hcA : choose_next P11 env2 trailInit (0,0) 0 [] (rng0 0) = some (0,1) := by
    have h : create_graph env2 (0,0) = [(0,1)] := by decide
    simp only [choose_next, h]
    norm_num [trailInit, dist, P11, P1, drawFrom, rng0]
    all_goals simp
  have hroute : build_route_single P11 env2 trailInit rng0 2 (0,0) (0,1) (0,1) [] 0
      = some ([(0,(0,1))], [(0,(0,1))], 1) := by
    unfold build_route_single
    rw [build_leg_step (by decide) hcA, build_leg_done rfl]
    simp only [Option.map_some', Option.some_bind]
    rw [build_leg_done rfl]
    rfl
  have hbsm : build_solution_multi P11 env2 trailInit rng0 2 [((0,0),(0,1),(0,1))] 0
      = some ([[(0,(0,1))]], 1) := by
    simp only [build_solution_multi, build_solution_aux]
    rw [hroute]
    simp only [Option.some_bind]
  have hscore : (score_solution P11 [[(0,(0,1))]]).1 = 0 := by
    norm_num [score_solution, routeDist, detect_conflicts, P11, P1]
  have hbc : buildCandidates P11 env2 trailInit rng0 2 [((0,0),(0,1),(0,1))] 1 0
      = some ([(0, [[(0,(0,1))]])], 1) := by
    simp only [buildCandidates]
    rw [hbsm]
    simp only [Option.some_bind]
    rw [hscore]
  have hmap : (run P11 env2 [((0,0),(0,1),(0,1))] rng0 2).map RunState.candLog
      = some [[0]] := by
    unfold run
    rw [show P11.iterations = 1 from rfl]
    simp only [runLoop]
    unfold runIter
    dsimp only
    rw [show P11.num_ants = 1 from rfl, hbc]
    simp only [Option.some_bind]
    rfl
  refine ⟨hmap, ?_⟩
  have h := run_best_score_is_min_of_candidates P11 env2 [((0,0),(0,1),(0,1))] rng0 2
    [[0]] hmap
  rw [h.2.2]
  rfl

/-- Witness for C5: one iteration with one ant on the 3-cell line evaporates
the trail of `((0,1),(0,2))` by `1 - rho` and deposits
`Q / (1 + 1e-9)` on it, the best (only) candidate's score being `1` and that
edge being traversed once by its route. -/
theorem iteration_evaporates_then_reinforces_best_witness :
    (buildCandidates P11 env3L trailInit rng5 3 [((0,0),(0,1),(0,2))] 1 0
       = some ([(1, [[(0,(0,1)),(1,(0,2))]])], 2)) ∧
    (∃ st1, runIter P11 env3L rng5 3 [((0,0),(0,1),(0,2))] ⟨trailInit, none, 0, []⟩
        = some st1 ∧
      st1.trail ((0,1),(0,2))
        = (1 - P11.rho) * trailInit ((0,1),(0,2))
          + (P11.Q / (1 + 1/1000000000)) * 1) := by
  have hc0 : choose_next P11 env3L trailInit (0,0) 0 [] (rng5 0) = some (0,1) := by
    have h : create_graph env3L (0,0) = [(0,1)] := by decide
    simp only [choose_next, h]
    norm_num [trailInit, dist, P11, P1, drawFrom, rng5]
    all_goals simp
  have hc1 : choose_next P11 env3L trailInit (0,1) 1 [(0,(0,1))] (rng5 1)
      = some (0,2) := by
    have h : create_graph env3L (0,1) = [(0,0),(0,2)] := by decide
    simp only [choose_next, h]
    norm_num [trailInit, dist, P11, P1, drawFrom, rng5]
    all_goals simp
  have hroute : build_route_single P11 env3L trailInit rng5 3 (0,0) (0,1) (0,2) [] 0
      = some ([(0,(0,1)),(1,(0,2))], [(1,(0,2)),(0,(0,1))], 2) := by
    unfold build_route_single
    rw [build_leg_step (by decide) hc0, build_leg_done rfl]
    simp only [Option.map_some', Option.some_bind]
    rw [build_leg_step (by decide) hc1, build_leg_done rfl]
    rfl
  have hbsm : build_solution_multi P11 env3L trailInit rng5 3 [((0,0),(0,1),(0,2))] 0
      = some ([[(0,(0,1)),(1,(0,2))]], 2) := by
    simp only [build_solution_multi, build_solution_aux]
    rw [hroute]
    simp only [Option.some_bind]
  have hscore : (score_solution P11 [[(0,(0,1)),(1,(0,2))]]).1 = 1 := by
    norm_num [score_solution, routeDist, detect_conflicts, P11, P1, dist]
  have hbc : buildCandidates P11 env3L trailInit rng5 3 [((0,0),(0,1),(0,2))] 1 0
      = some ([(1, [[(0,(0,1)),(1,(0,2))]])], 2) := by
    simp only [buildCandidates]
    rw [hbsm]
    simp only [Option.some_bind]
    rw [hscore]
  obtain ⟨st1, hrun, hmem, hmin, hlog, hform⟩ :=
    iteration_evaporates_then_reinforces_best P11 env3L rng5 3 [((0,0),(0,1),(0,2))]
      ⟨trailInit, none, 0, []⟩ [(1, [[(0,(0,1)),(1,(0,2))]])] 2 1 [[(0,(0,1)),(1,(0,2))]]
      hbc rfl
  refine ⟨hbc, st1, hrun, ?_⟩
  have hf := hform ((0,1),(0,2)) (by decide)
  rw [hf, show countTraversals [[(0,(0,1)),(1,(0,2))]] ((0,1),(0,2)) = 1 from by decide]
  norm_num

/-- Positivity is preserved by any admissible sequence of pheromone
operations. -/
lemma applyOps_pos (P : Params) (env : Env) (hr1 : P.rho < 1) (hQ : 0 < P.Q) :
    ∀ (ops : List PherOp) (tr : Trail), (∀ op ∈ ops, opScoreOK op) →
      (∀ e, 0 < tr e) → ∀ e, 0 < applyOps P env ops tr e := by
  intro ops
  induction ops with
  | nil => intro tr _ htr e; exact htr e
  | cons op rest ih =>
    intro tr hops htr e
    simp only [applyOps]
    apply ih (applyOp P env tr op) (fun o ho => hops o (List.mem_cons_of_mem _ ho))
    intro e'
    cases op with
    | evap =>
      simp only [applyOp, evaporate]
      by_cases he : isEdge env e' = true
      · rw [if_pos he]
        exact mul_pos (by linarith) (htr e')
      · rw [if_neg he]
        exact htr e'
    | reinf rs s =>
      have hs : 0 ≤ s := hops _ (List.mem_cons_self _ _)
      simp only [applyOp, reinforce]
      have hdep : 0 < P.Q / (s + 1/1000000000) := div_pos hQ (by linarith)
      have hadd : (0:ℚ) ≤ (P.Q / (s + 1/1000000000)) * (countTraversals rs e' : ℚ) :=
        mul_nonneg (le_of_lt hdep) (by positivity)
      linarith [htr e']

/-- Repeated reinforcement is an arithmetic progression on each edge. -/
lemma applyOps_replicate (P : Params) (env : Env) (rs : Sol) (s : ℚ)
    (e : Node × Node) :
    ∀ (n : ℕ) (tr : Trail),
      applyOps P env (List.replicate n (PherOp.reinf rs s)) tr e
        = tr e + n * ((P.Q / (s + 1/1000000000)) * (countTraversals rs e : ℚ)) := by
  intro n
  induction n with
  | zero => intro tr; simp [applyOps]
  | succ nn ih =>
    intro tr
    rw [List.replicate_succ]
    simp only [applyOps, applyOp]
    rw [ih]
    simp only [reinforce]
    push_cast
    ring

/-- C7: every pheromone value is the strictly positive constant `1/100` at
initialization and stays strictly positive through any number of
evaporate/reinforce cycles, for `rho ∈ (0,1)` and `Q > 0` (reinforcement
scores being non-negative, as the scorer produces); and there is no upper
cap: repeatedly reinforcing a solution that traverses an edge drives that
edge's trail above any bound. -/
theorem pheromone_positive_and_uncapped
    (P : Params) (env : Env) (ops : List PherOp)
    (hr0 : 0 < P.rho) (hr1 : P.rho < 1) (hQ : 0 < P.Q)
    (hops : ∀ op ∈ ops, opScoreOK op) :
    (∀ e : Node × Node, trailInit e = 1/100 ∧ 0 < trailInit e) ∧
    (∀ e, 0 < applyOps P env ops trailInit e) ∧
    (∀ (M : ℚ) (rs : Sol) (s : ℚ) (e : Node × Node), 0 ≤ s →
      1 ≤ countTraversals rs e →
      ∃ n, M < applyOps P env (List.replicate n (PherOp.reinf rs s)) trailInit e) := by
  refine ⟨fun e => ⟨rfl, by norm_num [trailInit]⟩, ?_, ?_⟩
  · exact applyOps_pos P env hr1 hQ ops trailInit hops (fun e => by norm_num [trailInit])
  · intro M rs s e hs hcnt
    set d : ℚ := (P.Q / (s + 1/1000000000)) * (countTraversals rs e : ℚ) with hd
    have hdep : 0 < P.Q / (s + 1/1000000000) := div_pos hQ (by linarith)
    have hone : (1:ℚ) ≤ (countTraversals rs e : ℚ) := by exact_mod_cast hcnt
    have hdpos : 0 < d := by
      rw [hd]
      exact mul_pos hdep (by linarith)
    obtain ⟨n, hn⟩ := exists_nat_gt ((M - 1/100) / d)
    refine ⟨n, ?_⟩
    rw [applyOps_replicate]
    have : (M - 1/100) < n * d := by
      rw [div_lt_iff hdpos] at hn
      linarith
    have htri : trailInit e = 1/100 := rfl
    rw [htri, ← hd]
    linarith

/-- Witness for C7 on the default parameters: after one evaporation and one
reinforcement (score 1) the trail of `((0,1),(0,2))` is still positive, and
repeated reinforcement of the route traversing that edge exceeds 1000. -/
theorem pheromone_positive_and_uncapped_witness :
    (0 < P1.rho ∧ P1.rho < 1 ∧ 0 < P1.Q ∧
      (∀ op ∈ [PherOp.evap, PherOp.reinf [[(0,(0,1)),(1,(0,2))]] 1], opScoreOK op)) ∧
    (0 < applyOps P1 env3L [PherOp.evap, PherOp.reinf [[(0,(0,1)),(1,(0,2))]] 1]
        trailInit ((0,1),(0,2))) ∧
    (∃ n, 1000 < applyOps P1 env3L
        (List.replicate n (PherOp.reinf [[(0,(0,1)),(1,(0,2))]] 1))
        trailInit ((0,1),(0,2))) := by
  have hops : ∀ op ∈ [PherOp.evap, PherOp.reinf [[(0,(0,1)),(1,(0,2))]] 1],
      opScoreOK op := by
    intro op hop
    rcases List.mem_cons.mp hop with rfl | hop'
    · exact True.intro
    · rcases List.mem_cons.mp hop' with rfl | hop''
      · norm_num [opScoreOK]
      · exact absurd hop'' (List.not_mem_nil op)
  have h := pheromone_positive_and_uncapped P1 env3L
    [PherOp.evap, PherOp.reinf [[(0,(0,1)),(1,(0,2))]] 1]
    (by norm_num [P1]) (by norm_num [P1]) (by norm_num [P1]) hops
  exact ⟨⟨by norm_num [P1], by norm_num [P1], by norm_num [P1], hops⟩,
    h.2.1 ((0,1),(0,2)),
    h.2.2 1000 [[(0,(0,1)),(1,(0,2))]] 1 ((0,1),(0,2)) (by norm_num) (by decide)⟩

/-- The function `choose_next` never reads `w_dist` or `MIN_SEP`. -/
lemma choose_next_upd (P : Params) (p q : ℚ) :
    ∀ (env : Env) (trail : Trail) (u : Node) (t : ℕ) (occ : Occ) (r : ℚ),
      choose_next (upd P p q) env trail u t occ r = choose_next P env trail u t occ r :=
  fun _ _ _ _ _ _ => rfl

/-- The function `score_solution` never reads `w_dist` or `MIN_SEP`. -/
lemma score_solution_upd (P : Params) (p q : ℚ) :
    ∀ rutas : Sol, score_solution (upd P p q) rutas = score_solution P rutas :=
  fun _ => rfl

/-- The function `evaporate` never reads `w_dist` or `MIN_SEP`. -/
lemma evaporate_upd (P : Params) (p q : ℚ) :
    ∀ (env : Env) (trail : Trail), evaporate (upd P p q) env trail = evaporate P env trail :=
  fun _ _ => rfl

/-- The function `reinforce` never reads `w_dist` or `MIN_SEP`. -/
lemma reinforce_upd (P : Params) (p q : ℚ) :
    ∀ (rutas : Sol) (s : ℚ) (trail : Trail),
      reinforce (upd P p q) rutas s trail = reinforce P rutas s trail :=
  fun _ _ _ => rfl

/-- The update `upd` leaves `num_ants` unchanged. -/
lemma upd_num_ants (P : Params) (p q : ℚ) : (upd P p q).num_ants = P.num_ants := rfl

/-- Leg construction never reads `w_dist` or `MIN_SEP`. -/
lemma build_leg_upd (P : Params) (p q : ℚ) (env : Env) (trail : Trail) (rng : ℕ → ℚ) :
    ∀ (fuel : ℕ) (a b : Node) (t : ℕ) (occ : Occ) (k : ℕ),
      build_leg (upd P p q) env trail rng fuel a b t occ k
        = build_leg P env trail rng fuel a b t occ k := by
  intro fuel
  induction fuel with
  | zero => intro a b t occ k; rfl
  | succ n ih =>
    intro a b t occ k
    simp only [build_leg, choose_next_upd P p q, ih]

/-- Route construction never reads `w_dist` or `MIN_SEP`. -/
lemma build_route_single_upd (P : Params) (p q : ℚ) (env : Env) (trail : Trail)
    (rng : ℕ → ℚ) :
    ∀ (fuel : ℕ) (s m d : Node) (occ : Occ) (k : ℕ),
      build_route_single (upd P p q) env trail rng fuel s m d occ k
        = build_route_single P env trail rng fuel s m d occ k := by
  intro fuel s m d occ k
  simp only [build_route_single, build_leg_upd P p q env trail rng]

/-- Per-agent construction never reads `w_dist` or `MIN_SEP`. -/
lemma build_solution_aux_upd (P : Params) (p q : ℚ) (env : Env) (trail : Trail)
    (rng : ℕ → ℚ) (fuel : ℕ) :
    ∀ (agents : List (Node × Node × Node)) (occ : Occ) (k : ℕ),
      build_solution_aux (upd P p q) env trail rng fuel agents occ k
        = build_solution_aux P env trail rng fuel agents occ k := by
  intro agents
  induction agents with
  | nil => intro occ k; rfl
  | cons ag rest ih =>
    intro occ k
    obtain ⟨s, m, d⟩ := ag
    simp only [build_solution_aux, build_route_single_upd P p q env trail rng, ih]

/-- Candidate construction never reads `w_dist` or `MIN_SEP`. -/
lemma buildCandidates_upd (P : Params) (p q : ℚ) (env : Env) (trail : Trail)
    (rng : ℕ → ℚ) (fuel : ℕ) (agents : List (Node × Node × Node)) :
    ∀ (n k : ℕ),
      buildCandidates (upd P p q) env trail rng fuel agents n k
        = buildCandidates P env trail rng fuel agents n k := by
  intro n
  induction n with
  | zero => intro k; rfl
  | succ nn ih =>
    intro k
    simp only [buildCandidates, build_solution_multi,
      build_solution_aux_upd P p q env trail rng fuel, score_solution_upd P p q, ih]

/-- One iteration never reads `w_dist` or `MIN_SEP`. -/
lemma runIter_upd (P : Params) (p q : ℚ) (env : Env) (rng : ℕ → ℚ) (fuel : ℕ)
    (agents : List (Node × Node × Node)) :
    ∀ st : RunState,
      runIter (upd P p q) env rng fuel agents st = runIter P env rng fuel agents st := by
  intro st
  simp only [runIter, upd_num_ants, buildCandidates_upd P p q env st.trail rng fuel agents,
    evaporate_upd P p q, reinforce_upd P p q]

/-- The iteration loop never reads `w_dist` or `MIN_SEP`. -/
lemma runLoop_upd (P : Params) (p q : ℚ) (env : Env) (rng : ℕ → ℚ) (fuel : ℕ)
    (agents : List (Node × Node × Node)) :
    ∀ (n : ℕ) (st : RunState),
      runLoop (upd P p q) env rng fuel agents n st
        = runLoop P env rng fuel agents n st := by
  intro n
  induction n with
  | zero => intro st; rfl
  | succ nn ih =>
    intro st
    simp only [runLoop, runIter_upd P p q env rng fuel agents, ih]

/-- C10: `w_dist` and `MIN_SEP` are stored by the constructor but never
read: two runs identical except for those two parameters (same environment,
agents, random draws and step budget) return identical results — routes,
scores, pheromone state and logs. -/
theorem run_ignores_w_dist_and_MIN_SEP (P : Params) (p q : ℚ) (env : Env)
    (agents : List (Node × Node × Node)) (rng : ℕ → ℚ) (fuel : ℕ) :
    run { P with w_dist := p, MIN_SEP := q } env agents rng fuel
      = run P env agents rng fuel := by
  show run (upd P p q) env agents rng fuel = run P env agents rng fuel
  unfold run
  rw [show (upd P p q).iterations = P.iterations from rfl]
  exact runLoop_upd P p q env rng fuel agents P.iterations _

end ACO
